import Mathlib

/-!
Verification development for the oxDNA analysis toolkit
(`oxDNA_analysis_tools`): the SVD alignment kernel (`align.py`), the
chunked map-reduce executor contract, the contact-map accumulation
(`contact_map.py`), trajectory splitting by cluster label
(`clustering.py`) and the force-file pair extraction
(`forces2pairs.py`).

Numerical state is embedded over `ℚ`: positions and orientation vectors
are rows `Fin 3 → ℚ`, 3×3 matrices are `Matrix (Fin 3) (Fin 3) ℚ`.
NumPy's SVD factorisation itself is a black-box numerical routine; the
embedding receives its two orthogonal factors `u` and `vt` as inputs and
works with the exact arithmetic the source performs on them.
-/

namespace OxDNA

/-- A 3-vector (one particle position or orientation vector), as a row. -/
abbrev Vec3 := Fin 3 → ℚ

/-- A 3×3 matrix. -/
abbrev M3 := Matrix (Fin 3) (Fin 3) ℚ

/-- `np.mean(l, axis=0)`: the componentwise mean of a list of rows.
(For the empty list `ℚ`-division by zero yields `0` where NumPy yields
`nan`; no claim evaluates it on an empty list.) -/
def vmean (l : List Vec3) : Vec3 :=
  fun i => (l.map (fun v => v i)).sum / (l.length : ℚ)

/-- NumPy fancy indexing `xs[indexes]`: select the rows at the given
positions (in-range indices, as the source requires). -/
def select (xs : List Vec3) (indexes : List ℕ) : List Vec3 :=
  indexes.filterMap (fun k => xs.get? k)

/-- `np.dot(np.transpose(xs), ys)` for two N×3 row lists: the 3×3
correlation matrix `a` of `svd_align`. -/
def corr (xs ys : List Vec3) : M3 :=
  Matrix.of fun i j => ((xs.zip ys).map (fun p => p.1 i * p.2 j)).sum

/-- `vt[2] = -vt[2]`: flip the sign of the last row of `vt`. -/
def negLastRow (vt : M3) : M3 :=
  vt.updateRow 2 (-(vt 2))

/-- The rotation matrix `svd_align` builds from the SVD factors `u`, `vt`
of the correlation matrix (`align.py` lines 47–55):
`rot = transpose(dot(transpose(vt), transpose(u)))`, recomputed with the
last row of `vt` negated when `det(rot) < 0`. -/
def svd_align_rot (u vt : M3) : M3 :=
  let rot := (vt.transpose * u.transpose).transpose
  if rot.det < 0 then ((negLastRow vt).transpose * u.transpose).transpose
  else rot

/-- `svd_align` (`align.py` lines 22–59) over the SVD factors `u vt`,
the (already indexed) reference rows, the candidate's
`coords = [positions, a1s, a3s]`, the index subset and the optional
reference centre (`none` embeds the empty-array default).

The result is the returned triple of new arrays **paired with the state
the caller's `coords` array holds after the call**: the source assigns
`coords[0] = coords[0] - av2` into the array it was passed, so the
positions slot of the state differs from the input while the `a1s` and
`a3s` slots are untouched. -/
def svd_align (u vt : M3) (ref_coords : List Vec3)
    (coords : List Vec3 × List Vec3 × List Vec3) (indexes : List ℕ)
    (ref_center : Option Vec3) :
    (List Vec3 × List Vec3 × List Vec3) × (List Vec3 × List Vec3 × List Vec3) :=
  -- if len(ref_center) == 0: ref_center = np.mean(ref_coords, axis=0)
  let av1 := ref_center.getD (vmean ref_coords)
  -- ref_coords = ref_coords - av1  (local rebinding)
  let refC := ref_coords.map (fun p => p - av1)
  -- av2 = np.mean(coords[0][indexes], axis=0)
  let av2 := vmean (select coords.1 indexes)
  -- coords[0] = coords[0] - av2  (writes into the caller's array)
  let coords0 := coords.1.map (fun p => p - av2)
  -- a = np.dot(np.transpose(coords[0][indexes]), ref_coords); u, _, vt = svd(a)
  let _a := corr (select coords0 indexes) refC
  let rot := svd_align_rot u vt
  -- tran = av1; return (coords[0]·rot + tran, coords[1]·rot, coords[2]·rot)
  ((coords0.map (fun p => Matrix.vecMul p rot + av1),
    coords.2.1.map (fun v => Matrix.vecMul v rot),
    coords.2.2.map (fun v => Matrix.vecMul v rot)),
   (coords0, coords.2.1, coords.2.2))

/-- The determinant of `(vtᵀ · uᵀ)ᵀ` is `det vt * det u`. -/
lemma det_rot_product (u vt : M3) :
    ((vt.transpose * u.transpose).transpose).det = vt.det * u.det := by
  rw [Matrix.det_transpose, Matrix.det_mul, Matrix.det_transpose,
    Matrix.det_transpose]

/-- Negating the last row of a 3×3 matrix negates its determinant. -/
lemma det_negLastRow (vt : M3) : (negLastRow vt).det = -vt.det := by
  have h : -(vt 2) = (-1 : ℚ) • vt 2 := by
    funext j; simp
  rw [negLastRow, h, Matrix.det_updateRow_smul, Matrix.updateRow_eq_self]
  ring

/-- C1: the rotation `svd_align` computes from orthogonal SVD factors
(each of determinant `±1`) is a proper rotation: its determinant is `+1`,
never `-1`; when the first product has negative determinant the last row
of `vt` is flipped and the product recomputed. -/
theorem svd_align_rot_det_one (u vt : M3)
    (hu : u.det = 1 ∨ u.det = -1) (hv : vt.det = 1 ∨ vt.det = -1) :
    (svd_align_rot u vt).det = 1 := by
  rcases hu with hu | hu <;> rcases hv with hv | hv <;>
    norm_num [svd_align_rot, det_rot_product, det_negLastRow, hu, hv]

/-- Witness for C1 at `u = vt = 1`. -/
theorem svd_align_rot_det_one_witness :
    ((1 : M3).det = 1 ∨ (1 : M3).det = -1) ∧ (svd_align_rot 1 1).det = 1 :=
  ⟨Or.inl Matrix.det_one,
    svd_align_rot_det_one 1 1 (Or.inl Matrix.det_one) (Or.inl Matrix.det_one)⟩

/-- C2 counterexample: a concrete call on which `svd_align` leaves the
caller's positions array changed.  One particle at `(1,1,1)`, aligned on
index subset `[0]`: after the call the caller's `coords[0]` holds the
centred value `(0,0,0)`, not the original `(1,1,1)`. -/
theorem svd_align_mutates_coords0 :
    ((svd_align 1 1 [fun _ => 0] ([fun _ => (1 : ℚ)], [], []) [0]
        (some (fun _ => 0))).2).1 ≠ [fun _ => (1 : ℚ)] := by
  have hm : vmean (select [fun _ => (1 : ℚ)] [0]) = fun _ => (1 : ℚ) := by
    funext i
    simp [vmean, select]
  have hL : ((svd_align 1 1 [fun _ => 0] ([fun _ => (1 : ℚ)], [], []) [0]
      (some (fun _ => 0))).2).1 = [fun _ => (0 : ℚ)] := by
    simp only [svd_align, hm, List.map_cons, List.map_nil]
    congr 1
    funext i
    simp
  rw [hL]
  intro h
  have h0 := congrFun (List.head_eq_of_cons_eq h) 0
  norm_num at h0

/-- C2 amended: `svd_align` does mutate the caller's array in place — the
positions slot `coords[0]` is overwritten with the positions centred on
the selected subset's mean — while the `a1s` and `a3s` slots are left
untouched and the transformed coordinates are returned as new arrays. -/
theorem svd_align_state (u vt : M3) (rc : List Vec3)
    (coords : List Vec3 × List Vec3 × List Vec3) (idx : List ℕ)
    (c : Option Vec3) :
    (svd_align u vt rc coords idx c).2.1 =
        coords.1.map (fun p => p - vmean (select coords.1 idx)) ∧
    (svd_align u vt rc coords idx c).2.2.1 = coords.2.1 ∧
    (svd_align u vt rc coords idx c).2.2.2 = coords.2.2 :=
  ⟨rfl, rfl, rfl⟩

/-- C6: for every frame, `svd_align` applies the computed rotation to the
candidate's full position array (after centring) and to both orientation
vector fields `a1s` and `a3s`; the rotated positions are translated by
the reference centroid `av1`, while neither orientation field receives
any translation. -/
theorem svd_align_applies_transform (u vt : M3) (rc : List Vec3)
    (coords : List Vec3 × List Vec3 × List Vec3) (idx : List ℕ)
    (c : Option Vec3) (j : ℕ) :
    ((svd_align u vt rc coords idx c).1.1[j]? =
        coords.1[j]?.map (fun p =>
          Matrix.vecMul (p - vmean (select coords.1 idx))
            (svd_align_rot u vt) + c.getD (vmean rc))) ∧
    ((svd_align u vt rc coords idx c).1.2.1[j]? =
        coords.2.1[j]?.map (fun v =>
          Matrix.vecMul v (svd_align_rot u vt))) ∧
    ((svd_align u vt rc coords idx c).1.2.2[j]? =
        coords.2.2[j]?.map (fun v =>
          Matrix.vecMul v (svd_align_rot u vt))) := by
  refine ⟨?_, ?_, ?_⟩
  · simp only [svd_align, List.getElem?_map]
    cases coords.1[j]? <;> rfl
  · simp only [svd_align, List.getElem?_map]
  · simp only [svd_align, List.getElem?_map]

/-- The error taxonomy the specification assigns to alignment input
validation. -/
inductive AlignError where
  | invalidSelection
  | other

/-- The index-subset handling of `align` (`align.py` lines 106–107): an
empty `indexes` argument is replaced by the full particle range
`list(range(top_info.nbases))`; no validation error of any kind is
raised.  The `Except` result type makes the absence of an error path
explicit. -/
def align_indexes (nbases : ℕ) (indexes : List ℕ) :
    Except AlignError (List ℕ) :=
  Except.ok (if indexes = [] then List.range nbases else indexes)

/-- C5 counterexample: invoking alignment with an empty index subset on a
3-particle topology does not fail with `InvalidSelectionError` — it
proceeds with the full index range `[0, 1, 2]`. -/
theorem align_empty_indexes_no_error :
    align_indexes 3 [] = Except.ok [0, 1, 2] ∧
    align_indexes 3 [] ≠ Except.error AlignError.invalidSelection :=
  ⟨rfl, fun h => Except.noConfusion h⟩

/-- C5 amended: invoking alignment with an empty index subset proceeds
with every particle index (`0 .. nbases-1`) selected, rather than raising
an input-validation error. -/
theorem align_empty_indexes_defaults_all (nbases : ℕ) :
    align_indexes nbases [] = Except.ok (List.range nbases) := rfl

/-! ### Chunk scheduler / map-reduce executor

The executor `oat_multiprocesser` (`UTILS/oat_multiprocesser.py`) is not
part of this source tree — only its callers are (`align.py` line 125,
`contact_map.py` line 64, both passing `traj_info.nconfs` and `ncpus`,
with `compute` reading the chunk `[chunk_id * chunk_size,
chunk_id * chunk_size + chunk_size)`).  Its partitioning is therefore
modelled from the specification. -/

/-- Modelled from the spec: the executor's chunk size,
`ceil(total_frames / worker_count)` frames per chunk
(`oat_multiprocesser` is absent from the source tree). -/
def chunk_size (t w : ℕ) : ℕ := (t + w - 1) / w

/-- Modelled from the spec: the number of chunks the executor submits,
covering `t` frames in `chunk_size t w`-sized pieces; zero when the
trajectory is empty. -/
def num_chunks (t w : ℕ) : ℕ :=
  if t = 0 then 0 else (t + chunk_size t w - 1) / chunk_size t w

/-- Modelled from the spec: the chunk list, one `(start, size)` pair per
chunk index; chunk `i` starts at frame `i * chunk_size` and holds the
full `chunk_size` frames except possibly the final chunk, truncated to
the frames that remain. -/
def chunks (t w : ℕ) : List (ℕ × ℕ) :=
  (List.range (num_chunks t w)).map
    (fun i => (i * chunk_size t w,
      min (chunk_size t w) (t - i * chunk_size t w)))

/-- Ceiling division bounds: `a ≤ ceil(a/b) * b`. -/
lemma le_ceil_mul (a b : ℕ) (hb : 0 < b) : a ≤ ((a + b - 1) / b) * b := by
  have h1 : b * ((a + b - 1) / b) + (a + b - 1) % b = a + b - 1 :=
    Nat.div_add_mod _ _
  have h2 : (a + b - 1) % b < b := Nat.mod_lt _ hb
  rw [Nat.mul_comm] at h1
  omega

/-- Ceiling division is positive on positive input. -/
lemma ceil_pos (a b : ℕ) (ha : 0 < a) (hb : 0 < b) :
    0 < (a + b - 1) / b :=
  Nat.div_pos (by omega) hb

/-- Ceiling division bounds: `(ceil(a/b) - 1) * b < a`. -/
lemma pred_ceil_mul_lt (a b : ℕ) (ha : 0 < a) (hb : 0 < b) :
    (((a + b - 1) / b) - 1) * b < a := by
  have h1 : b * ((a + b - 1) / b) + (a + b - 1) % b = a + b - 1 :=
    Nat.div_add_mod _ _
  have h2 : (a + b - 1) % b < b := Nat.mod_lt _ hb
  have h3 : 0 < (a + b - 1) / b := ceil_pos a b ha hb
  obtain ⟨q, hq⟩ : ∃ q, (a + b - 1) / b = q + 1 :=
    ⟨(a + b - 1) / b - 1, by omega⟩
  rw [hq] at h1 ⊢
  have h4 : b * (q + 1) = q * b + b := by ring
  rw [h4] at h1
  simp only [Nat.add_sub_cancel]
  omega

/-- The entry at index `i` of the chunk list. -/
lemma chunks_getElem (t w i : ℕ) (hi : i < num_chunks t w) :
    (chunks t w)[i]? = some (i * chunk_size t w,
      min (chunk_size t w) (t - i * chunk_size t w)) := by
  simp [chunks, List.getElem?_map, List.getElem?_range, hi]

/-- A prefix of full chunks sums to `n * cs`. -/
lemma sum_sizes_full (cs : ℕ) :
    ∀ (n t : ℕ), n * cs ≤ t →
      ((List.range n).map (fun i => min cs (t - i * cs))).sum = n * cs := by
  intro n
  induction n with
  | zero => simp
  | succ n ih =>
    intro t ht
    rw [Nat.succ_mul] at ht
    rw [List.range_succ, List.map_append, List.sum_append,
      ih t (by omega)]
    simp only [List.map_cons, List.map_nil, List.sum_cons, List.sum_nil]
    have h2 : min cs (t - n * cs) = cs := by omega
    rw [h2, Nat.succ_mul]
    omega

/-- The chunk size is positive whenever there are frames to split. -/
lemma chunk_size_pos (t w : ℕ) (hw : 1 ≤ w) (ht : 0 < t) :
    0 < chunk_size t w :=
  Nat.div_pos (by omega) (by omega)

/-- C3: for every `total_frames ≥ 0` and `worker_count ≥ 1` the modelled
executor partition satisfies: chunk sizes sum to exactly `total_frames`;
every chunk but the last holds exactly `chunk_size = ceil(t/w)` frames;
chunk `i` starts at frame `i * chunk_size`; consecutive chunks are
contiguous (gap-free and non-overlapping); and the final chunk holds
`t mod chunk_size` frames when that is nonzero, else a full chunk. -/
theorem executor_partition (t w : ℕ) (hw : 1 ≤ w) :
    (((chunks t w).map Prod.snd).sum = t) ∧
    (∀ i, i + 1 < num_chunks t w →
      (chunks t w)[i]? = some (i * chunk_size t w, chunk_size t w)) ∧
    (∀ i, i < num_chunks t w →
      ((chunks t w)[i]?).map Prod.fst = some (i * chunk_size t w)) ∧
    (∀ i, i + 1 < num_chunks t w → ∀ c₁ c₂,
      (chunks t w)[i]? = some c₁ → (chunks t w)[i + 1]? = some c₂ →
        c₂.1 = c₁.1 + c₁.2) ∧
    (0 < t → (chunks t w)[num_chunks t w - 1]? =
      some ((num_chunks t w - 1) * chunk_size t w,
        if t % chunk_size t w = 0 then chunk_size t w
        else t % chunk_size t w)) := by
  rcases Nat.eq_zero_or_pos t with ht | ht
  · subst ht
    refine ⟨by simp [chunks, num_chunks], ?_, ?_, ?_, by omega⟩ <;>
      simp [num_chunks]
  have hcs : 0 < chunk_size t w := chunk_size_pos t w hw ht
  have hn : num_chunks t w = (t + chunk_size t w - 1) / chunk_size t w := by
    simp [num_chunks, Nat.pos_iff_ne_zero.mp ht]
  have hnpos : 0 < num_chunks t w := by
    rw [hn]; exact ceil_pos _ _ ht hcs
  have hub : t ≤ num_chunks t w * chunk_size t w := by
    rw [hn]; exact le_ceil_mul _ _ hcs
  have hlb : (num_chunks t w - 1) * chunk_size t w < t := by
    rw [hn]; exact pred_ceil_mul_lt _ _ ht hcs
  -- every non-final chunk index leaves at least a full chunk of frames
  have hfull : ∀ i, i + 1 < num_chunks t w →
      min (chunk_size t w) (t - i * chunk_size t w) = chunk_size t w := by
    intro i hi
    have h2 : (i + 1) * chunk_size t w ≤
        (num_chunks t w - 1) * chunk_size t w :=
      Nat.mul_le_mul_right _ (by omega)
    have h3 : (i + 1) * chunk_size t w = i * chunk_size t w +
        chunk_size t w := by ring
    omega
  refine ⟨?_, ?_, ?_, ?_, ?_⟩
  · -- sizes sum to t
    rw [chunks, List.map_map]
    have hcomp : (Prod.snd ∘ fun i => (i * chunk_size t w,
        min (chunk_size t w) (t - i * chunk_size t w))) =
        fun i => min (chunk_size t w) (t - i * chunk_size t w) := rfl
    rw [hcomp]
    obtain ⟨m, hm⟩ : ∃ m, num_chunks t w = m + 1 :=
      ⟨num_chunks t w - 1, by omega⟩
    have hmle : m * chunk_size t w ≤ t := by
      have h := hlb; rw [hm] at h; simp at h; omega
    rw [hm, List.range_succ, List.map_append, List.sum_append,
      sum_sizes_full (chunk_size t w) m t hmle]
    simp only [List.map_cons, List.map_nil, List.sum_cons, List.sum_nil]
    have hub' : t ≤ (m + 1) * chunk_size t w := by rw [← hm]; exact hub
    rw [Nat.succ_mul] at hub'
    omega
  · intro i hi
    rw [chunks_getElem t w i (by omega), hfull i hi]
  · intro i hi
    rw [chunks_getElem t w i hi]
    rfl
  · intro i hi c₁ c₂ h₁ h₂
    rw [chunks_getElem t w i (by omega)] at h₁
    rw [chunks_getElem t w (i + 1) hi] at h₂
    cases h₁; cases h₂
    simp only
    rw [hfull i hi]
    ring
  · intro _
    rw [chunks_getElem t w _ (by omega)]
    have hmin : min (chunk_size t w)
        (t - (num_chunks t w - 1) * chunk_size t w) =
        t - (num_chunks t w - 1) * chunk_size t w := by
      have h4 : num_chunks t w * chunk_size t w =
          (num_chunks t w - 1) * chunk_size t w + chunk_size t w := by
        obtain ⟨m, hm⟩ : ∃ m, num_chunks t w = m + 1 :=
          ⟨num_chunks t w - 1, by omega⟩
        rw [hm]; simp [Nat.succ_mul]
      omega
    rw [hmin]
    -- write t = (n-1)·cs + r with 0 < r ≤ cs and compare with t mod cs
    have h4 : num_chunks t w * chunk_size t w =
        (num_chunks t w - 1) * chunk_size t w + chunk_size t w := by
      obtain ⟨m, hm⟩ : ∃ m, num_chunks t w = m + 1 :=
        ⟨num_chunks t w - 1, by omega⟩
      rw [hm]; simp [Nat.succ_mul]
    have hr : t = (num_chunks t w - 1) * chunk_size t w +
        (t - (num_chunks t w - 1) * chunk_size t w) := by omega
    have hkey : (t - (num_chunks t w - 1) * chunk_size t w) +
        (num_chunks t w - 1) * chunk_size t w = t := by omega
    have hmod : t % chunk_size t w =
        (t - (num_chunks t w - 1) * chunk_size t w) % chunk_size t w := by
      calc t % chunk_size t w
          = ((t - (num_chunks t w - 1) * chunk_size t w) +
              (num_chunks t w - 1) * chunk_size t w) % chunk_size t w := by
            rw [hkey]
        _ = (t - (num_chunks t w - 1) * chunk_size t w) %
              chunk_size t w := Nat.add_mul_mod_self_right _ _ _
    rcases Nat.lt_or_ge (t - (num_chunks t w - 1) * chunk_size t w)
        (chunk_size t w) with hlt | hge
    · rw [hmod, Nat.mod_eq_of_lt hlt]
      have : t - (num_chunks t w - 1) * chunk_size t w ≠ 0 := by omega
      simp [this]
    · have heq : t - (num_chunks t w - 1) * chunk_size t w =
          chunk_size t w := by omega
      rw [heq, hmod, heq, Nat.mod_self]
      simp

/-- Witness for C3 at `total_frames = 5`, `worker_count = 2`
(chunk size 3, chunks `[(0,3), (3,2)]`). -/
theorem executor_partition_witness :
    (1 ≤ 2) ∧
    ((((chunks 5 2).map Prod.snd).sum = 5) ∧
    (∀ i, i + 1 < num_chunks 5 2 →
      (chunks 5 2)[i]? = some (i * chunk_size 5 2, chunk_size 5 2)) ∧
    (∀ i, i < num_chunks 5 2 →
      ((chunks 5 2)[i]?).map Prod.fst = some (i * chunk_size 5 2)) ∧
    (∀ i, i + 1 < num_chunks 5 2 → ∀ c₁ c₂,
      (chunks 5 2)[i]? = some c₁ → (chunks 5 2)[i + 1]? = some c₂ →
        c₂.1 = c₁.1 + c₁.2) ∧
    (0 < 5 → (chunks 5 2)[num_chunks 5 2 - 1]? =
      some ((num_chunks 5 2 - 1) * chunk_size 5 2,
        if 5 % chunk_size 5 2 = 0 then chunk_size 5 2
        else 5 % chunk_size 5 2))) :=
  ⟨by decide, executor_partition 5 2 (by decide)⟩

/-! ### Contact map accumulation (`contact_map.py`)

The per-frame pairwise minimum-image distance matrix is produced by
`vectorized_min_image` (`distance.py`, outside this source tree); the
embedding takes the already-computed per-frame N×N matrices as input and
follows the aggregation arithmetic of `contact_map.py` exactly. -/

/-- An N×N pairwise-distance matrix. -/
abbrev DMat (n : ℕ) := Matrix (Fin n) (Fin n) ℚ

/-- `compute` of `contact_map.py` (lines 23–41) on one chunk: start at
`np.zeros((nbases, nbases))` and add each frame's distance matrix. -/
def cmCompute {n : ℕ} (frames : List (DMat n)) : DMat n :=
  frames.foldl (· + ·) 0

/-- The per-chunk frame lists the executor hands to `compute`
(chunk `i` covers frames `[i * chunk_size, i * chunk_size + chunk_size)`,
as read back by `get_confs(…, chunk_id * chunk_size, chunk_size)`). -/
def chunkedFrames {n : ℕ} (frames : List (DMat n)) (w : ℕ) :
    List (List (DMat n)) :=
  (List.range (num_chunks frames.length w)).map
    (fun i => (frames.drop (i * chunk_size frames.length w)).take
      (chunk_size frames.length w))

/-- `contact_map` (`contact_map.py` lines 44–70): the callback adds each
chunk's partial matrix into `distances` (initially `np.zeros`); the total
is then divided by `traj_info.nconfs` and multiplied by `0.8518`
(oxDNA length units → nanometres). -/
def contact_map {n : ℕ} (frames : List (DMat n)) (w : ℕ) : DMat n :=
  let distances := ((chunkedFrames frames w).map cmCompute).foldl (· + ·) 0
  Matrix.of fun i j =>
    distances i j / (frames.length : ℚ) * (0.8518 : ℚ)

/-- Chunking by a positive chunk size that covers the list flattens back
to the original list. -/
lemma chunked_flatten_aux {α : Type} (cs : ℕ) :
    ∀ (n : ℕ) (l : List α), l.length ≤ n * cs →
      ((List.range n).map (fun i => (l.drop (i * cs)).take cs)).flatten
        = l := by
  intro n
  induction n with
  | zero =>
    intro l hl
    simp only [Nat.zero_mul, Nat.le_zero, List.length_eq_zero] at hl
    simp [hl]
  | succ n ih =>
    intro l hl
    rw [List.range_succ_eq_map, List.map_cons, List.map_map,
      List.flatten_cons]
    have hshift : ((fun i => (l.drop (i * cs)).take cs) ∘ Nat.succ) =
        fun i => ((l.drop cs).drop (i * cs)).take cs := by
      funext i
      have h5 : Nat.succ i * cs = cs + i * cs := by
        rw [Nat.succ_mul, Nat.add_comm]
      simp only [Function.comp_apply, List.drop_drop, h5]
    rw [hshift, ih (l.drop cs) (by rw [Nat.succ_mul] at hl; simp; omega)]
    simp [List.take_append_drop]

/-- The executor's chunks of the frame list flatten back to the frame
list when `worker_count ≥ 1`. -/
lemma chunkedFrames_flatten {n : ℕ} (frames : List (DMat n)) (w : ℕ)
    (hw : 1 ≤ w) : (chunkedFrames frames w).flatten = frames := by
  rcases Nat.eq_zero_or_pos frames.length with h0 | hpos
  · rw [List.length_eq_zero] at h0
    subst h0
    simp [chunkedFrames, num_chunks]
  have hcs : 0 < chunk_size frames.length w :=
    chunk_size_pos _ _ hw hpos
  have hn : num_chunks frames.length w =
      (frames.length + chunk_size frames.length w - 1) /
        chunk_size frames.length w := by
    simp [num_chunks, Nat.pos_iff_ne_zero.mp hpos]
  apply chunked_flatten_aux
  rw [hn]
  exact le_ceil_mul _ _ hcs

/-- The entry of a list-sum of matrices is the sum of the entries. -/
lemma list_sum_entry {n : ℕ} (l : List (DMat n)) (i j : Fin n) :
    l.sum i j = (l.map (fun D => D i j)).sum := by
  induction l with
  | nil => rfl
  | cons D l ih =>
    rw [List.sum_cons, List.map_cons, List.sum_cons, ← ih]
    rfl

/-- `np.zeros` followed by repeated `+=` is a list sum. -/
lemma foldl_add_eq_sum {n : ℕ} (l : List (DMat n)) :
    l.foldl (· + ·) 0 = l.sum := List.sum_eq_foldl.symm

/-- C8: the matrix `contact_map` returns is the per-frame-averaged
distance matrix multiplied by the fixed constant `0.8518` (oxDNA length
units per nanometre): every entry is the average of that entry over all
frames, scaled by `0.8518` — not the raw average. -/
theorem contact_map_is_scaled_average {n : ℕ} (frames : List (DMat n))
    (w : ℕ) (hw : 1 ≤ w) (i j : Fin n) :
    contact_map frames w i j =
      (frames.map (fun D => D i j)).sum / (frames.length : ℚ)
        * (0.8518 : ℚ) := by
  show ((((chunkedFrames frames w).map cmCompute).foldl (· + ·) 0 :
      DMat n) i j) / (frames.length : ℚ) * (0.8518 : ℚ) = _
  rw [foldl_add_eq_sum]
  have hc : ((chunkedFrames frames w).map cmCompute) =
      ((chunkedFrames frames w).map List.sum) := by
    apply List.map_congr_left
    intro c _
    exact foldl_add_eq_sum c
  rw [hc, ← List.sum_flatten, chunkedFrames_flatten frames w hw,
    list_sum_entry]

/-- Witness for C8: one 1×1 frame matrix with entry `3`, one worker; the
returned entry is `3 / 1 * 0.8518`. -/
theorem contact_map_is_scaled_average_witness :
    (1 ≤ 1) ∧ contact_map (n := 1) [fun _ _ => (3 : ℚ)] 1 0 0 =
      (([fun _ _ => (3 : ℚ)] : List (DMat 1)).map (fun D => D 0 0)).sum /
        (([fun _ _ => (3 : ℚ)] : List (DMat 1)).length : ℚ)
        * (0.8518 : ℚ) :=
  ⟨le_refl 1, contact_map_is_scaled_average [fun _ _ => (3 : ℚ)] 1
    (le_refl 1) 0 0⟩

/-- C4 counterexample: for the single-frame trajectory whose only 1×1
distance matrix has entry `1` (one worker), the returned matrix is not
the per-chunk sum divided by the frame count: the entry is
`1 / 1 * 0.8518 = 0.8518`, while the raw average is `1`. -/
theorem contact_map_counterexample :
    contact_map (n := 1) [fun _ _ => (1 : ℚ)] 1 ≠
      Matrix.of (fun i j =>
        (List.map (fun D => D i j)
          (List.map cmCompute
            (chunkedFrames (n := 1) [fun _ _ => (1 : ℚ)] 1))).sum /
        (([fun _ _ => (1 : ℚ)] : List (DMat 1)).length : ℚ)) := by
  intro h
  have h0 := congrFun (congrFun h 0) 0
  have h1 := contact_map_is_scaled_average (n := 1)
    [fun _ _ => (1 : ℚ)] 1 (le_refl 1) 0 0
  rw [h1] at h0
  have hc : (List.map cmCompute
        (chunkedFrames (n := 1) [fun _ _ => (1 : ℚ)] 1))
      = (List.map List.sum
        (chunkedFrames (n := 1) [fun _ _ => (1 : ℚ)] 1)) := by
    apply List.map_congr_left
    intro c _
    exact foldl_add_eq_sum c
  rw [hc] at h0
  have h2 : (List.map (fun D => D (0 : Fin 1) (0 : Fin 1))
      (List.map List.sum
        (chunkedFrames (n := 1) [fun _ _ => (1 : ℚ)] 1))).sum = 1 := by
    rw [← list_sum_entry, ← List.sum_flatten,
      chunkedFrames_flatten _ _ (le_refl 1)]
    simp
  rw [Matrix.of_apply] at h0
  rw [h2] at h0
  norm_num at h0

/-- C4 amended: the matrix `contact_map` returns equals the elementwise
sum of all per-chunk pairwise-distance matrices divided by the
trajectory's frame count **and then multiplied by `0.8518`** — the scaled
per-particle-pair average distance over all frames. -/
theorem contact_map_is_chunk_sum_scaled {n : ℕ} (frames : List (DMat n))
    (w : ℕ) (i j : Fin n) :
    contact_map frames w i j =
      (List.map (fun D => D i j)
        (List.map cmCompute (chunkedFrames frames w))).sum
        / (frames.length : ℚ) * (0.8518 : ℚ) := by
  show ((((chunkedFrames frames w).map cmCompute).foldl (· + ·) 0 :
      DMat n) i j) / (frames.length : ℚ) * (0.8518 : ℚ) = _
  rw [foldl_add_eq_sum, list_sum_entry]

/-! ### Trajectory splitting by cluster label (`clustering.py`)

`split_trajectory` opens one output file per distinct label (the file for
label `c` is named `cluster_<c>.dat`) and writes frame `i`'s serialized
text to `files[labs[i]]`.  The files are created in the iteration order
of the Python set `set(labs)` — implementation-defined — so that order
enters the embedding as the explicit list `slabs`; entry `i` of the
result is the content of the file named `cluster_<slabs[i]>.dat`.  Frame
serialisation (`conf_to_str`) and streaming (`linear_read`) live outside
this source tree, so a frame's serialized text is an opaque token `ℕ`
delivered in trajectory order. -/

/-- Python list indexing `files[l]` for `l : int`: a non-negative index
must be below the length; a negative index counts from the end; anything
else raises `IndexError` (`none`). -/
def pyIndex (len : ℕ) (l : ℤ) : Option ℕ :=
  if 0 ≤ l then
    if l < (len : ℤ) then some l.toNat else none
  else
    if 0 ≤ l + (len : ℤ) then some (l + (len : ℤ)).toNat else none

/-- The write loop of `split_trajectory` (`clustering.py` lines 50–53):
for each frame (in trajectory order) append its serialized text to
`files[labs[i]]`. -/
def writeLoop : List (ℕ × ℤ) → List (List ℕ) → Option (List (List ℕ))
  | [], files => some files
  | (t, lab) :: rest, files =>
    match pyIndex files.length lab with
    | none => none
    | some j => writeLoop rest (files.set j (files.getD j [] ++ [t]))

/-- `split_trajectory` (`clustering.py` lines 25–60): open one file per
entry of `slabs` (the `set(labs)` iteration order) and route each frame
to `files[labs[i]]`. -/
def split_trajectory (frames : List ℕ) (labs : List ℤ)
    (slabs : List ℤ) : Option (List (List ℕ)) :=
  writeLoop (frames.zip labs) (slabs.map (fun _ => []))

/-- C7 counterexample: one frame labelled `1` (so the only open file is
`cluster_1.dat`, at position `0`).  The claim requires the frame's text
to be written to `cluster_1.dat`, but the code evaluates `files[1]` on
the one-element file list and raises `IndexError` instead of writing. -/
theorem split_trajectory_counterexample :
    split_trajectory [7] [1] [1] = none ∧
    split_trajectory [7] [1] [1] ≠ some [[7]] := by decide

/-- Invariant of the write loop: when every remaining label is a valid
non-negative index, the loop succeeds and each file ends up holding its
start content followed by the texts of the frames carrying its index, in
their original order. -/
lemma writeLoop_spec : ∀ (pairs : List (ℕ × ℤ)) (files : List (List ℕ)),
    (∀ p ∈ pairs, 0 ≤ p.2 ∧ p.2 < (files.length : ℤ)) →
    ∃ res, writeLoop pairs files = some res ∧
      res.length = files.length ∧
      ∀ j : ℕ, j < files.length →
        res[j]? = some (files.getD j [] ++
          ((pairs.filter (fun p => p.2 = (j : ℤ))).map Prod.fst)) := by
  intro pairs
  induction pairs with
  | nil =>
    intro files _
    refine ⟨files, rfl, rfl, ?_⟩
    intro j hj
    rw [List.getElem?_eq_getElem hj]
    simp [List.getD_eq_getElem?_getD, List.getElem?_eq_getElem hj]
  | cons q rest ih =>
    obtain ⟨t, lab⟩ := q
    intro files h
    have hq := h (t, lab) (List.mem_cons_self _ _)
    have h0le : 0 ≤ lab := hq.1
    have h0lt : lab < (files.length : ℤ) := hq.2
    have hj0 : (lab.toNat : ℤ) = lab := Int.toNat_of_nonneg h0le
    have hj0lt : lab.toNat < files.length := by omega
    have hpi : pyIndex files.length lab = some lab.toNat := by
      simp [pyIndex, h0le, h0lt]
    have hstep : writeLoop ((t, lab) :: rest) files =
        writeLoop rest
          (files.set lab.toNat (files.getD lab.toNat [] ++ [t])) := by
      rw [writeLoop, hpi]
    obtain ⟨res, hres, hlenres, hent⟩ :=
      ih (files.set lab.toNat (files.getD lab.toNat [] ++ [t]))
        (by
          intro p hp
          have := h p (List.mem_cons_of_mem _ hp)
          simpa using this)
    refine ⟨res, by rw [hstep]; exact hres, by simpa using hlenres, ?_⟩
    intro j hj
    have hj' : j < (files.set lab.toNat
        (files.getD lab.toNat [] ++ [t])).length := by simpa using hj
    have hres_j := hent j hj'
    by_cases hlabj : lab = (j : ℤ)
    · have hnat : lab.toNat = j := by omega
      have hset : (files.set lab.toNat
          (files.getD lab.toNat [] ++ [t])).getD j [] =
          files.getD j [] ++ [t] := by
        rw [hnat, List.getD_eq_getElem?_getD,
          List.getElem?_set_eq_of_lt _ (hnat ▸ hj0lt)]
        rfl
      rw [hres_j, hset]
      have hfil : (((t, lab) :: rest).filter
          (fun p => p.2 = (j : ℤ))) =
          (t, lab) :: (rest.filter (fun p => p.2 = (j : ℤ))) := by
        simp [List.filter_cons, hlabj]
      rw [hfil]
      simp
    · have hnat : lab.toNat ≠ j := by omega
      have hset : (files.set lab.toNat
          (files.getD lab.toNat [] ++ [t])).getD j [] =
          files.getD j [] := by
        rw [List.getD_eq_getElem?_getD, List.getElem?_set_ne hnat,
          ← List.getD_eq_getElem?_getD]
      rw [hres_j, hset]
      have hfil : (((t, lab) :: rest).filter
          (fun p => p.2 = (j : ℤ))) =
          rest.filter (fun p => p.2 = (j : ℤ)) := by
        simp [List.filter_cons, hlabj]
      rw [hfil]

/-- C7 amended: when every frame's label lies in `{0, …, k-1}` and the
set-iteration order enumerates the labels as `0, 1, …, k-1` (which is
what CPython produces for such label sets), `split_trajectory` writes
each frame's text to exactly the file named for its label, and within
each output file the frames appear in their original trajectory order. -/
theorem split_trajectory_routes_by_label (frames : List ℕ)
    (labs : List ℤ) (k : ℕ) (_hlen : labs.length = frames.length)
    (hvals : ∀ l ∈ labs, 0 ≤ l ∧ l < (k : ℤ)) :
    split_trajectory frames labs ((List.range k).map Int.ofNat) =
      some ((List.range k).map (fun (j : ℕ) =>
        (((frames.zip labs).filter
          (fun p => p.2 = (j : ℤ))).map Prod.fst))) := by
  have hinitlen : (((List.range k).map Int.ofNat).map
      (fun _ => ([] : List ℕ))).length = k := by simp
  obtain ⟨res, hres, hlenres, hent⟩ :=
    writeLoop_spec (frames.zip labs)
      (((List.range k).map Int.ofNat).map (fun _ => []))
      (by
        intro p hp
        have hmem : p.2 ∈ labs := (List.of_mem_zip hp).2
        have := hvals p.2 hmem
        rw [hinitlen]
        exact this)
  rw [split_trajectory, hres]
  congr 1
  apply List.ext_getElem?
  intro n
  by_cases hn : n < k
  · rw [hent n (by rw [hinitlen]; exact hn)]
    have hinit : (((List.range k).map Int.ofNat).map
        (fun _ => ([] : List ℕ))).getD n [] = [] := by
      rw [List.getD_eq_getElem?_getD, List.getElem?_map]
      cases hcase : ((List.range k).map Int.ofNat)[n]? <;> rfl
    rw [hinit]
    simp [List.getElem?_map, List.getElem?_range, hn]
  · have h1 : res[n]? = none := by
      apply List.getElem?_eq_none
      rw [hlenres, hinitlen]
      omega
    have h2 : (((List.range k).map (fun (j : ℕ) =>
        (((frames.zip labs).filter
          (fun p => p.2 = (j : ℤ))).map Prod.fst))))[n]? = none := by
      apply List.getElem?_eq_none
      simp
      omega
    rw [h1, h2]

/-- Witness for C7 (amended): three frames `10, 20, 30` labelled
`0, 1, 0` with `k = 2`: `cluster_0.dat` receives frames `10` and `30` in
order, `cluster_1.dat` receives frame `20`. -/
theorem split_trajectory_routes_by_label_witness :
    (([0, 1, 0] : List ℤ).length = ([10, 20, 30] : List ℕ).length) ∧
    (∀ l ∈ ([0, 1, 0] : List ℤ), 0 ≤ l ∧ l < ((2 : ℕ) : ℤ)) ∧
    split_trajectory [10, 20, 30] [0, 1, 0]
        ((List.range 2).map Int.ofNat) =
      some ((List.range 2).map (fun (j : ℕ) =>
        ((([10, 20, 30].zip ([0, 1, 0] : List ℤ)).filter
          (fun p => p.2 = (j : ℤ))).map Prod.fst))) :=
  ⟨by decide, by decide,
    split_trajectory_routes_by_label [10, 20, 30] [0, 1, 0] 2
      (by decide) (by decide)⟩

/-! ### DBSCAN driver (`clustering.py`, `perform_DBSCAN`)

The DBSCAN classifier itself is an external black box
(`sklearn.cluster.DBSCAN`); its per-frame labels enter the embedding as
an input.  The observable behaviour of `perform_DBSCAN` is its outcome:
either the guard error, or the ordered list of externally visible
effects it performs (serialising the input to `cluster_data.json`,
running the clustering, splitting the trajectory into `cluster_*.dat`
files, writing centroid files, writing the plot). -/

/-- The externally visible effects of `perform_DBSCAN`, in program
order. -/
inductive ClusterEffect where
  | serializeInput
  | runClustering
  | splitTrajectoryFiles
  | writeCentroids
  | writePlot
deriving DecidableEq

/-- `len(set(labels)) - (1 if -1 in labels else 0)`
(`clustering.py` line 310). -/
def n_clusters (labels : List ℤ) : ℕ :=
  labels.eraseDups.length - (if (-1 : ℤ) ∈ labels then 1 else 0)

/-- `perform_DBSCAN` (`clustering.py` lines 246–337): after the
dependency check it validates `traj_info.nconfs == len(op)` and raises
`RuntimeError` on mismatch; only on success does it serialize the input,
run DBSCAN, and (unless too few clusters were found or `no_traj` is set)
split the trajectory, write centroids and write the plot. -/
def perform_DBSCAN (nconfs op_len : ℕ) (labels : List ℤ)
    (min_clusters : ℤ) (no_traj : Bool) :
    Except String (List ClusterEffect) :=
  if nconfs ≠ op_len then
    Except.error
      "Length of trajectory is not equal to length of order parameter array"
  else
    Except.ok ([ClusterEffect.serializeInput, ClusterEffect.runClustering] ++
      (if (n_clusters labels : ℤ) < min_clusters then []
       else (if no_traj then [] else [ClusterEffect.splitTrajectoryFiles]) ++
         [ClusterEffect.writeCentroids, ClusterEffect.writePlot]))

/-- C9: whenever the trajectory's frame count differs from the length of
the order-parameter array, `perform_DBSCAN` fails with the
`RuntimeError`, performing none of its effects — nothing is serialized,
no clustering runs, and no output file is written. -/
theorem perform_DBSCAN_length_guard (nconfs op_len : ℕ)
    (labels : List ℤ) (min_clusters : ℤ) (no_traj : Bool)
    (h : nconfs ≠ op_len) :
    perform_DBSCAN nconfs op_len labels min_clusters no_traj =
      Except.error
        "Length of trajectory is not equal to length of order parameter array"
      := by
  simp [perform_DBSCAN, h]

/-- Witness for C9 at `nconfs = 1`, `len(op) = 2`. -/
theorem perform_DBSCAN_length_guard_witness :
    ((1 : ℕ) ≠ 2) ∧
    perform_DBSCAN 1 2 [] 0 false =
      Except.error
        "Length of trajectory is not equal to length of order parameter array"
      :=
  ⟨by decide, perform_DBSCAN_length_guard 1 2 [] 0 false (by decide)⟩

/-! ### Force-file pair extraction (`forces2pairs.py`)

Lines of the force file are embedded as `List Char` (Python string
methods are reimplemented structurally below).  The numeric conversion
`int(float(line.split("=")[1].strip()))` goes through Python
floating-point parsing, which has no shallow embedding; it enters as the
oracle parameter `v` applied to the line, and no claim depends on its
values. -/

/-- A Python string, as its character sequence. -/
abbrev PyStr := List Char

/-- Python `str.strip()`: remove leading and trailing whitespace. -/
def pyStrip (s : PyStr) : PyStr :=
  ((s.dropWhile Char.isWhitespace).reverse.dropWhile
    Char.isWhitespace).reverse

/-- Python `pat in s`: substring containment. -/
def pyContains (s pat : PyStr) : Bool :=
  (List.range (s.length + 1)).any (fun i => pat.isPrefixOf (s.drop i))

/-- The loop of `forces2pairs` (`forces2pairs.py` lines 44–56): track the
current `particle` value `a` and `ref_particle` value `b` (initially
`-1`); on a line containing `"\x7d"` append `(a, b)` to the pair list —
but only when `a < b` — and reset both to `-1`. -/
def forces2pairsLoop (v : PyStr → ℤ) :
    List PyStr → ℤ → ℤ → List (ℤ × ℤ) → List (ℤ × ℤ)
  | [], _, _, pairs => pairs
  | line :: rest, a, b, pairs =>
    let l := pyStrip line
    let a₁ := if "particle".toList.isPrefixOf l then v l else a
    let b₁ := if pyContains l "ref_particle".toList then v l else b
    if pyContains l "\x7d".toList then
      forces2pairsLoop v rest (-1) (-1)
        (if a₁ < b₁ then pairs ++ [(a₁, b₁)] else pairs)
    else
      forces2pairsLoop v rest a₁ b₁ pairs

/-- `forces2pairs` (`forces2pairs.py` lines 34–58) over the force file's
lines. -/
def forces2pairs (v : PyStr → ℤ) (lines : List PyStr) : List (ℤ × ℤ) :=
  forces2pairsLoop v lines (-1) (-1) []

/-- Pairs only ever enter the accumulator under the `a < b` guard. -/
lemma forces2pairsLoop_inv (v : PyStr → ℤ) :
    ∀ (lines : List PyStr) (a b : ℤ) (pairs : List (ℤ × ℤ)),
      (∀ q ∈ pairs, q.1 < q.2) →
      ∀ p ∈ forces2pairsLoop v lines a b pairs, p.1 < p.2 := by
  intro lines
  induction lines with
  | nil =>
    intro a b pairs hinv p hp
    exact hinv p hp
  | cons line rest ih =>
    intro a b pairs hinv p hp
    simp only [forces2pairsLoop] at hp
    by_cases hbrace : pyContains (pyStrip line) "\x7d".toList
    · rw [if_pos hbrace] at hp
      refine ih _ _ _ ?_ p hp
      by_cases hab : (if "particle".toList.isPrefixOf (pyStrip line)
            then v (pyStrip line) else a) <
          (if pyContains (pyStrip line) "ref_particle".toList
            then v (pyStrip line) else b)
      · rw [if_pos hab]
        intro q hq
        rcases List.mem_append.mp hq with hq | hq
        · exact hinv q hq
        · rcases List.mem_singleton.mp hq with rfl
          exact hab
      · rw [if_neg hab]
        exact hinv
    · rw [if_neg hbrace] at hp
      exact ih _ _ _ hinv p hp

/-- C10: every pair `(a, b)` in the list `forces2pairs` returns satisfies
`a < b`: each pair is recorded with the smaller particle index first
(and hence at most once per force block, by the single guarded append per
block-closing line). -/
theorem forces2pairs_pairs_ordered (v : PyStr → ℤ) (lines : List PyStr)
    (p : ℤ × ℤ) (hp : p ∈ forces2pairs v lines) : p.1 < p.2 :=
  forces2pairsLoop_inv v lines (-1) (-1) [] (by intro q hq; cases hq) p hp

/-- A concrete value oracle for the witness force file: the `particle`
line carries `1`, the `ref_particle` line carries `2`. -/
def vWitness : PyStr → ℤ :=
  fun l => if l = "particle = 1".toList then 1 else 2

/-- Witness for C10 on a one-block force file. -/
theorem forces2pairs_pairs_ordered_witness :
    (((1 : ℤ), (2 : ℤ)) ∈ forces2pairs vWitness
      ["particle = 1".toList, "ref_particle = 2".toList,
        "\x7d".toList]) ∧ ((1 : ℤ), (2 : ℤ)).1 < ((1 : ℤ), (2 : ℤ)).2 :=
  ⟨by decide,
    forces2pairs_pairs_ordered vWitness
      ["particle = 1".toList, "ref_particle = 2".toList, "\x7d".toList]
      (1, 2) (by decide)⟩

end OxDNA
